import Mathlib

/-!
Shallow embedding of `src/dep/tab_parser.py` (class `Tab`).

Python strings are modelled as `List Char`; the file handed to `Tab.read`
is modelled as the list of lines that `readlines` produces (each such line
is nonempty in practice, a fact taken as a hypothesis where a theorem
needs it rather than baked into the definitions).  A Python exception
escaping a method (an `IndexError` from `s[0]` on an empty string or from
`l[i]` out of range) is modelled by `Option`: `none` is the escaping
exception.  The partial append to `tab_roots` that precedes an
`IndexError` inside the root-extraction loop is not modelled; every
theorem about the object state is conditioned on the call succeeding.
-/

set_option autoImplicit false

/-- State of a `Tab` object, as set up by `Tab.__init__`. -/
structure Tab where
  symbols : List (List Char)
  notes_sharps : List (List Char)
  notes_flat : List (List Char)
  tab : List (List Char)
  tab_roots : List Char
  divisions : Int
  timesignature : List Char
  strings : Nat
deriving Repr, DecidableEq

/-- `Tab(divisions, timesignature, strings)`; the source defaults `strings` to 6. -/
def mkTab (divisions : Int) (timesignature : List Char) (strings : Nat) : Tab :=
  { symbols := [['/'], ['\\'], ['~'], ['h'], ['p'], ['b']]
  , notes_sharps :=
      [['C'], ['C', '#'], ['D'], ['D', '#'], ['E'], ['F'], ['F', '#'],
       ['G'], ['G', '#'], ['A'], ['A', '#'], ['B']]
  , notes_flat :=
      [['C'], ['D', 'b'], ['D'], ['E', 'b'], ['E'], ['F'], ['G', 'b'],
       ['G'], ['A', 'b'], ['A'], ['B', 'b'], ['B']]
  , tab := []
  , tab_roots := []
  , divisions := divisions
  , timesignature := timesignature
  , strings := strings }

/-- Python `list.remove(x)`: delete the first element equal to `x`. -/
def removeFirst : List (List Char) → List Char → List (List Char)
  | [], _ => []
  | a :: rest, x => if a = x then rest else a :: removeFirst rest x

/-- A line the filtering loop of `Tab.read` tries to drop: a blank line
(`line == "\n"`) or a section header (`line[0] == "["`). -/
def isJunk (l : List Char) : Bool :=
  decide (l = ['\n']) || decide (l.head? = some '[')

/-- The remove-while-iterating loop of `Tab.read` (source lines 26-30).
`k` is the position of Python's list iterator.  The fuel starts at the
length of the iterated list, which bounds the number of loop iterations
(`k` grows by one per iteration and the list never grows), so fuel runs
out only once the iterator is already past the end of the list, where
returning the current list agrees with the loop's own exit.  `none`
models the `IndexError` that `line[0]` raises on an empty string. -/
def filterLoop : Nat → List (List Char) → Nat → Option (List (List Char))
  | 0, tab, _ => some tab
  | fuel + 1, tab, k =>
    match tab.get? k with
    | none => some tab
    | some line =>
      if line = ['\n'] then filterLoop fuel (removeFirst tab line) (k + 1)
      else
        match line with
        | [] => none
        | c :: _ =>
          if c = '[' then filterLoop fuel (removeFirst tab line) (k + 1)
          else filterLoop fuel tab (k + 1)

/-- The whole filtering pass of `Tab.read` over the `readlines` result. -/
def filterLines (tab : List (List Char)) : Option (List (List Char)) :=
  filterLoop tab.length tab 0

/-- `tab[i][0]`: `none` models the `IndexError` when `i` is out of range
or the line is empty. -/
def rootAt (tab : List (List Char)) (i : Nat) : Option Char :=
  (tab.get? i).bind List.head?

/-- The root-extraction loop of `Tab.read` (source lines 33-34), collecting
`tab[i][0]` for `i` running over the given index list. -/
def getRootsAux (tab : List (List Char)) : List Nat → Option (List Char)
  | [] => some []
  | i :: is =>
    match rootAt tab i with
    | none => none
    | some c =>
      match getRootsAux tab is with
      | none => none
      | some cs => some (c :: cs)

/-- The root characters appended by `Tab.read`: `tab[i][0]` for
`i in range(strings)`. -/
def getRoots (tab : List (List Char)) (strings : Nat) : Option (List Char) :=
  getRootsAux tab (List.range strings)

/-- `line[2:-1]` (source line 38): drop the first two characters, then the
last remaining one; total, possibly returning the empty string. -/
def trimLine (l : List Char) : List Char :=
  (l.drop 2).dropLast

/-- `s.replace("|", "")` (source line 41). -/
def removePipes (l : List Char) : List Char :=
  l.filter (fun c => decide (c ≠ '|'))

/-- Python `range(i, n, step)` for `step > 0`.  The fuel starts at `n`:
every iteration advances `i` by at least one, so after `n` iterations
`i ≥ n` holds and the run is over; fuel can run out only at that point,
where returning `[]` agrees with `range` itself. -/
def rangeStepAux (step : Nat) : Nat → Nat → Nat → List Nat
  | 0, _, _ => []
  | fuel + 1, i, n => if i < n then i :: rangeStepAux step fuel (i + step) n else []

/-- Python `range(i, n, step)`. -/
def rangeStep (i n step : Nat) : List Nat :=
  rangeStepAux step n i n

/-- `"".join(tab[j] for j in range(i, len(tab), strings))` (source line 47). -/
def groupJoin (tab : List (List Char)) (i strings : Nat) : List Char :=
  ((rangeStep i tab.length strings).map (fun j => tab.getD j [])).flatten

/-- `Tab.read` (source lines 19-51).  File acquisition is out of scope: the
argument is the `readlines` result.  On success it returns the updated
object state together with the returned `self.tab`. -/
def Tab.read (t : Tab) (input : List (List Char)) : Option (Tab × List (List Char)) :=
  match filterLines input with
  | none => none
  | some tab1 =>
    match getRoots tab1 t.strings with
    | none => none
    | some roots =>
      let tab2 := (tab1.map trimLine).map removePipes
      let result := (List.range t.strings).map (fun i => groupJoin tab2 i t.strings)
      some ({ t with tab := result, tab_roots := t.tab_roots ++ roots }, result)

/-- The loop of `Tab.print` (source lines 54-55), collecting the printed
lines; `none` models the `IndexError` from `tab_roots[i]`. -/
def printLinesAux (roots : List Char) (tab : List (List Char)) :
    List Nat → Option (List (List Char))
  | [] => some []
  | i :: is =>
    match roots.get? i with
    | none => none
    | some r =>
      match printLinesAux roots tab is with
      | none => none
      | some rest => some ((r :: '|' :: tab.getD i []) :: rest)

/-- `Tab.print`, modelled as the list of lines it would print:
`tab_roots[i] + "|" + tab[i]` for `i in range(len(tab))`. -/
def Tab.printLines (t : Tab) : Option (List (List Char)) :=
  printLinesAux t.tab_roots t.tab (List.range t.tab.length)

/-- Iterated `read` calls on one and the same object, keeping only the
final state; `none` as soon as one call fails. -/
def readAll (t : Tab) : List (List (List Char)) → Option Tab
  | [] => some t
  | input :: rest =>
    match t.read input with
    | none => none
    | some (t', _) => readAll t' rest

/-- Specification-side stable filter: the sublist of non-blank, non-header
input lines in their original order, which is how the claims read the
words "filtered (non-blank, non-header) line list". -/
def stableFilter (input : List (List Char)) : List (List Char) :=
  input.filter (fun l => !(isJunk l))

/-- Specification-side interleaving: the concatenation, in ascending
order, of `contents[j]` over the positions `j < contents.length` with
`j mod strings = i`. -/
def specSeq (strings i : Nat) (contents : List (List Char)) : List Char :=
  (((List.range contents.length).filter (fun j => decide (j % strings = i))).map
    (fun j => contents.getD j [])).flatten

/-- Concrete sample state: a fresh one-string decoder after it has read
the single line `E|a`. -/
def sampleT1 : Tab :=
  { mkTab 16 [] 1 with tab := [['a']], tab_roots := ['E'] }

/-- Concrete sample state: `sampleT1` after reading one further line
`F|b`. -/
def sampleT2 : Tab :=
  { mkTab 16 [] 1 with tab := [['b']], tab_roots := ['E', 'F'] }

/-! Helper lemmas. -/

theorem removeFirst_sublist (l : List (List Char)) (x : List Char) :
    (removeFirst l x).Sublist l := by
  induction l with
  | nil => exact List.Sublist.refl _
  | cons a rest ih =>
    by_cases h : a = x
    · rw [removeFirst, if_pos h]
      exact List.sublist_cons_self a rest
    · simpa [removeFirst, h] using ih.cons₂ a

theorem filter_removeFirst (p : List Char → Bool) (l : List (List Char)) (x : List Char)
    (hx : p x = false) : (removeFirst l x).filter p = l.filter p := by
  induction l with
  | nil => rfl
  | cons a rest ih =>
    by_cases h : a = x
    · subst h
      simp [removeFirst, List.filter_cons, hx]
    · simp [removeFirst, h, List.filter_cons, ih]

theorem stableFilter_removeFirst (l : List (List Char)) (x : List Char)
    (hx : isJunk x = true) : stableFilter (removeFirst l x) = stableFilter l :=
  filter_removeFirst _ l x (by simp [hx])

theorem isJunk_blank : isJunk ['\n'] = true := by decide

theorem isJunk_header (cs : List Char) : isJunk ('[' :: cs) = true := by
  simp [isJunk]

theorem filterLoop_inv :
    ∀ (fuel : Nat) (tab : List (List Char)) (k : Nat) (fl : List (List Char)),
      filterLoop fuel tab k = some fl →
        fl.Sublist tab ∧ stableFilter fl = stableFilter tab := by
  intro fuel
  induction fuel with
  | zero =>
    intro tab k fl h
    simp only [filterLoop, Option.some.injEq] at h
    subst h
    exact ⟨List.Sublist.refl _, rfl⟩
  | succ fuel ih =>
    intro tab k fl h
    simp only [filterLoop] at h
    cases hg : tab.get? k with
    | none =>
      rw [hg] at h
      simp only [Option.some.injEq] at h
      subst h
      exact ⟨List.Sublist.refl _, rfl⟩
    | some line =>
      simp only [hg] at h
      by_cases hb : line = ['\n']
      · rw [if_pos hb] at h
        obtain ⟨h1, h2⟩ := ih _ _ _ h
        refine ⟨h1.trans (removeFirst_sublist _ _), ?_⟩
        rw [h2, stableFilter_removeFirst _ _ (hb ▸ isJunk_blank)]
      · rw [if_neg hb] at h
        cases line with
        | nil => cases h
        | cons c cs =>
          simp only [] at h
          by_cases hc : c = '['
          · rw [if_pos hc] at h
            obtain ⟨h1, h2⟩ := ih _ _ _ h
            refine ⟨h1.trans (removeFirst_sublist _ _), ?_⟩
            rw [h2, stableFilter_removeFirst _ _ (hc ▸ isJunk_header cs)]
          · rw [if_neg hc] at h
            exact ih _ _ _ h

theorem filterLoop_isSome :
    ∀ (fuel : Nat) (tab : List (List Char)) (k : Nat),
      (∀ l ∈ tab, l ≠ []) → (filterLoop fuel tab k).isSome := by
  intro fuel
  induction fuel with
  | zero => intro tab k _; simp [filterLoop]
  | succ fuel ih =>
    intro tab k hne
    simp only [filterLoop]
    cases hg : tab.get? k with
    | none => simp
    | some line =>
      simp only [hg]
      have hmem : line ∈ tab := List.get?_mem hg
      have hlne : line ≠ [] := hne line hmem
      by_cases hb : line = ['\n']
      · rw [if_pos hb]
        exact ih _ _ (fun l hl => hne l ((removeFirst_sublist tab line).mem hl))
      · rw [if_neg hb]
        cases line with
        | nil => exact absurd rfl hlne
        | cons c cs =>
          simp only []
          by_cases hc : c = '['
          · rw [if_pos hc]
            exact ih _ _ (fun l hl => hne l ((removeFirst_sublist tab (c :: cs)).mem hl))
          · rw [if_neg hc]
            exact ih _ _ hne

theorem filterLoop_of_clean :
    ∀ (fuel : Nat) (tab : List (List Char)) (k : Nat),
      (∀ l ∈ tab, isJunk l = false ∧ l ≠ []) → filterLoop fuel tab k = some tab := by
  intro fuel
  induction fuel with
  | zero => intro tab k _; rfl
  | succ fuel ih =>
    intro tab k hcl
    simp only [filterLoop]
    cases hg : tab.get? k with
    | none => rfl
    | some line =>
      simp only [hg]
      have hmem : line ∈ tab := List.get?_mem hg
      obtain ⟨hj, hlne⟩ := hcl line hmem
      have hb : line ≠ ['\n'] := by
        intro hb
        rw [hb, isJunk_blank] at hj
        cases hj
      rw [if_neg hb]
      cases line with
      | nil => exact absurd rfl hlne
      | cons c cs =>
        simp only []
        have hc : c ≠ '[' := by
          intro hc
          rw [hc, isJunk_header cs] at hj
          cases hj
        rw [if_neg hc]
        exact ih _ _ hcl

theorem getRootsAux_eq_map (tab : List (List Char)) (is : List Nat)
    (h : ∀ i ∈ is, (rootAt tab i).isSome) :
    getRootsAux tab is = some (is.map (fun i => (rootAt tab i).getD ' ')) := by
  induction is with
  | nil => rfl
  | cons i is ih =>
    obtain ⟨c, hc⟩ := Option.isSome_iff_exists.mp (h i (List.mem_cons_self i is))
    rw [List.map_cons, getRootsAux]
    simp only [hc, ih (fun j hj => h j (List.mem_cons_of_mem i hj)), Option.getD_some]

theorem getRootsAux_eq_none (tab : List (List Char)) (is : List Nat) (i : Nat)
    (hmem : i ∈ is) (hnone : rootAt tab i = none) : getRootsAux tab is = none := by
  induction is with
  | nil => cases hmem
  | cons j js ih =>
    rcases List.mem_cons.mp hmem with h | h
    · subst h
      rw [getRootsAux, hnone]
    · cases hj : rootAt tab j with
      | none => rw [getRootsAux, hj]
      | some c => rw [getRootsAux, hj, ih h]

theorem add_le_of_mod_eq {s i j : Nat} (hij : i < j)
    (hm : j % s = i % s) : i + s ≤ j := by
  have hd : s ∣ (j - i) := Nat.dvd_of_mod_eq_zero (Nat.sub_mod_eq_zero_of_mod_eq hm)
  have := Nat.le_of_dvd (by omega) hd
  omega

theorem rangeStepAux_eq_filter (s : Nat) (hs : 0 < s) :
    ∀ (fuel i n : Nat), n ≤ fuel + i →
      rangeStepAux s fuel i n =
        (List.range n).filter (fun j => decide (i ≤ j) && decide (j % s = i % s)) := by
  intro fuel
  induction fuel with
  | zero =>
    intro i n hn
    rw [rangeStepAux]
    symm
    rw [List.filter_eq_nil_iff]
    intro j hj
    have : ¬ i ≤ j := by
      have := List.mem_range.mp hj
      omega
    simp [this]
  | succ fuel ih =>
    intro i n hn
    rw [rangeStepAux]
    by_cases hin : i < n
    · rw [if_pos hin, ih (i + s) n (by omega)]
      have hsplit : n = (i + 1) + (n - (i + 1)) := by omega
      rw [hsplit, List.range_add, List.range_succ]
      rw [List.filter_append, List.filter_append, List.filter_append, List.filter_append]
      have hlow : ∀ p : Nat → Bool, (∀ j, j < i → p j = false) →
          (List.range i).filter p = [] := by
        intro p hp
        rw [List.filter_eq_nil_iff]
        intro j hj
        simp [hp j (List.mem_range.mp hj)]
      rw [hlow _ (fun j hj => by simp; omega), hlow _ (fun j hj => by simp; omega)]
      have hself : (List.filter (fun j => decide (i ≤ j) && decide (j % s = i % s)) [i]) = [i] := by
        simp
      have hself2 : (List.filter (fun j => decide (i + s ≤ j) && decide (j % s = (i + s) % s)) [i]) = [] := by
        simp
        omega
      rw [hself, hself2]
      rw [List.filter_map, List.filter_map]
      have hcongr :
          List.filter ((fun j => decide (i + s ≤ j) && decide (j % s = (i + s) % s)) ∘
              (fun x => i + 1 + x)) (List.range (n - (i + 1))) =
          List.filter ((fun j => decide (i ≤ j) && decide (j % s = i % s)) ∘
              (fun x => i + 1 + x)) (List.range (n - (i + 1))) := by
        apply List.filter_congr
        intro x _
        simp only [Function.comp_apply, Nat.add_mod_right]
        have h1 : i ≤ i + 1 + x := by omega
        by_cases hm : (i + 1 + x) % s = i % s
        · have h2 : i + s ≤ i + 1 + x := add_le_of_mod_eq (by omega) hm
          simp [hm, h1, h2]
        · simp [hm]
      rw [hcongr]
      simp
    · rw [if_neg hin]
      symm
      rw [List.filter_eq_nil_iff]
      intro j hj
      have : ¬ i ≤ j := by
        have := List.mem_range.mp hj
        omega
      simp [this]

theorem rangeStep_eq_filter (s i n : Nat) (hi : i < s) :
    rangeStep i n s = (List.range n).filter (fun j => decide (j % s = i)) := by
  rw [rangeStep, rangeStepAux_eq_filter s (by omega) n i n (by omega)]
  apply List.filter_congr
  intro j _
  have hi' : i % s = i := Nat.mod_eq_of_lt hi
  rw [hi']
  by_cases hm : j % s = i
  · have hij : i ≤ j := by
      rcases Nat.lt_or_ge j s with h | h
      · rw [Nat.mod_eq_of_lt h] at hm
        omega
      · omega
    simp [hm, hij]
  · simp [hm]

theorem groupJoin_eq_specSeq (tab : List (List Char)) (i s : Nat) (hi : i < s) :
    groupJoin tab i s = specSeq s i tab := by
  rw [groupJoin, specSeq, rangeStep_eq_filter s i tab.length hi]

theorem read_eq_some {t : Tab} {input : List (List Char)} {t' : Tab}
    {res : List (List Char)} (h : t.read input = some (t', res)) :
    ∃ fl roots, filterLines input = some fl ∧ getRoots fl t.strings = some roots ∧
      res = (List.range t.strings).map
        (fun i => groupJoin ((fl.map trimLine).map removePipes) i t.strings) ∧
      t' = { t with tab := res, tab_roots := t.tab_roots ++ roots } := by
  rw [Tab.read] at h
  cases hf : filterLines input with
  | none =>
    rw [hf] at h
    cases h
  | some fl =>
    simp only [hf] at h
    cases hr : getRoots fl t.strings with
    | none =>
      rw [hr] at h
      cases h
    | some roots =>
      simp only [hr, Option.some.injEq, Prod.mk.injEq] at h
      obtain ⟨h1, h2⟩ := h
      refine ⟨fl, roots, rfl, hr, h2.symm, ?_⟩
      rw [← h1, h2]

theorem read_mk (t : Tab) (input fl : List (List Char)) (roots : List Char)
    (hf : filterLines input = some fl) (hr : getRoots fl t.strings = some roots) :
    t.read input = some
      ({ t with
          tab := (List.range t.strings).map
            (fun i => groupJoin ((fl.map trimLine).map removePipes) i t.strings)
        , tab_roots := t.tab_roots ++ roots },
        (List.range t.strings).map
          (fun i => groupJoin ((fl.map trimLine).map removePipes) i t.strings)) := by
  rw [Tab.read]
  simp only [hf, hr]

theorem getD_range_map {α : Type} (f : Nat → α) (n i : Nat) (d : α) (hi : i < n) :
    ((List.range n).map f).getD i d = f i := by
  rw [List.getD_eq_getElem _ _ (by simpa using hi)]
  simp

theorem not_mem_removePipes (l : List Char) : '|' ∉ removePipes l := by
  intro hmem
  have := List.mem_filter.mp hmem
  simp at this

theorem not_mem_groupJoin (tab : List (List Char)) (i s : Nat)
    (h : ∀ l ∈ tab, '|' ∉ l) : '|' ∉ groupJoin tab i s := by
  rw [groupJoin]
  intro hmem
  obtain ⟨l, hl, hc⟩ := List.mem_flatten.mp hmem
  obtain ⟨j, _, rfl⟩ := List.mem_map.mp hl
  rcases Nat.lt_or_ge j tab.length with hlt | hge
  · refine h _ ?_ hc
    rw [List.getD_eq_getElem _ _ hlt]
    exact List.getElem_mem hlt
  · rw [List.getD_eq_default _ _ hge] at hc
    cases hc

theorem printLinesAux_eq_map (roots : List Char) (tab : List (List Char))
    (is : List Nat) (h : ∀ i ∈ is, i < roots.length) :
    printLinesAux roots tab is =
      some (is.map (fun i => roots.getD i ' ' :: '|' :: tab.getD i [])) := by
  induction is with
  | nil => rfl
  | cons i is ih =>
    have hi : i < roots.length := h i (List.mem_cons_self i is)
    rw [printLinesAux, List.get?_eq_getElem?, List.getElem?_eq_getElem hi]
    simp only []
    rw [ih (fun j hj => h j (List.mem_cons_of_mem i hj))]
    simp only [List.map_cons, Option.some.injEq]
    rw [List.getD_eq_getElem roots ' ' hi]

theorem getD_take_eq {α : Type} (l : List α) (n i : Nat) (d : α) (hi : i < n) :
    (l.take n).getD i d = l.getD i d := by
  rcases Nat.lt_or_ge i l.length with hl | hl
  · rw [List.getD_eq_getElem _ _ (by simp [List.length_take]; omega),
      List.getD_eq_getElem _ _ hl]
    exact List.getElem_take _
  · rw [List.getD_eq_default _ _ (by simp [List.length_take]; omega),
      List.getD_eq_default _ _ hl]

theorem rootAt_isSome_of (tab : List (List Char)) (i : Nat) (hi : i < tab.length)
    (hne : ∀ l ∈ tab, l ≠ []) : (rootAt tab i).isSome := by
  rw [rootAt, List.get?_eq_getElem?, List.getElem?_eq_getElem hi]
  cases hl : tab[i] with
  | nil => exact absurd hl (hne _ (List.getElem_mem hi))
  | cons c cs => simp [List.head?]

theorem rootAt_none_of_ge (tab : List (List Char)) (i : Nat)
    (hi : tab.length ≤ i) : rootAt tab i = none := by
  rw [rootAt, List.get?_eq_getElem?, List.getElem?_eq_none hi]
  rfl

theorem getRootsAux_length (tab : List (List Char)) :
    ∀ (is : List Nat) (cs : List Char), getRootsAux tab is = some cs →
      cs.length = is.length := by
  intro is
  induction is with
  | nil =>
    intro cs h
    simp only [getRootsAux, Option.some.injEq] at h
    subst h
    rfl
  | cons i is ih =>
    intro cs h
    rw [getRootsAux] at h
    cases hr : rootAt tab i with
    | none => rw [hr] at h; cases h
    | some c =>
      simp only [hr] at h
      cases ha : getRootsAux tab is with
      | none => rw [ha] at h; cases h
      | some cs' =>
        simp only [ha, Option.some.injEq] at h
        subst h
        simp [ih cs' ha]

theorem rangeStepAux_nil (s fuel i n : Nat) (h : n ≤ i) :
    rangeStepAux s fuel i n = [] := by
  cases fuel with
  | zero => rfl
  | succ fuel => rw [rangeStepAux, if_neg (by omega)]

theorem rangeStep_self (i s : Nat) (hi : i < s) : rangeStep i s s = [i] := by
  obtain ⟨m, rfl⟩ : ∃ m, s = m + 1 := ⟨s - 1, by omega⟩
  rw [rangeStep, rangeStepAux, if_pos (by omega),
    rangeStepAux_nil _ _ _ _ (by omega)]

theorem readAll_inv :
    ∀ (rest : List (List (List Char))) (t t' : Tab), readAll t rest = some t' →
      t'.strings = t.strings ∧
      t'.tab_roots.length = t.tab_roots.length + rest.length * t.strings ∧
      t'.tab_roots.take t.tab_roots.length = t.tab_roots ∧
      (t'.tab = t.tab ∨ t'.tab.length = t.strings) := by
  intro rest
  induction rest with
  | nil =>
    intro t t' h
    simp only [readAll, Option.some.injEq] at h
    subst h
    exact ⟨rfl, by simp, by simp, Or.inl rfl⟩
  | cons input rest ih =>
    intro t t' h
    rw [readAll] at h
    cases hr : t.read input with
    | none => rw [hr] at h; cases h
    | some p =>
      simp only [hr] at h
      obtain ⟨tm, r⟩ := p
      obtain ⟨fl, roots, hf, hgr, hres, ht⟩ := read_eq_some hr
      have hroots : roots.length = t.strings :=
        (getRootsAux_length fl _ _ hgr).trans (List.length_range t.strings)
      obtain ⟨h1, h2, h3, h4⟩ := ih tm t' h
      have hstr : tm.strings = t.strings := by rw [ht]
      have htr : tm.tab_roots = t.tab_roots ++ roots := by rw [ht]
      have htab : tm.tab.length = t.strings := by
        rw [ht]
        dsimp only
        rw [hres]
        simp
      refine ⟨h1.trans hstr, ?_, ?_, ?_⟩
      · rw [h2, htr, hstr]
        simp only [List.length_append, hroots, List.length_cons]
        ring
      · rw [htr] at h3
        have hcut := congrArg (List.take t.tab_roots.length) h3
        rw [List.take_take] at hcut
        have hmin : min t.tab_roots.length (t.tab_roots ++ roots).length =
            t.tab_roots.length := by
          simp [List.length_append]
        rw [hmin] at hcut
        rw [hcut, List.take_left]
      · right
        rcases h4 with h4 | h4
        · rw [h4]
          exact htab
        · rw [h4]
          exact hstr

/-! Claim theorems. -/

/-- C8: bar-separator removal is idempotent: removing every bar character
from a string from which every bar character has already been removed is a
no-op. -/
theorem removePipes_idempotent (s : List Char) :
    removePipes (removePipes s) = removePipes s := by
  rw [removePipes, removePipes, List.filter_filter]
  simp

/-- C5: content trimming yields the line with its first two characters and
its trailing character removed, and on a line of fewer than two characters
it totals out to the empty remainder instead of failing. -/
theorem trimLine_trims_prefix_and_terminator :
    (∀ (a b last : Char) (content : List Char),
      trimLine (a :: b :: (content ++ [last])) = content) ∧
    (∀ l : List Char, l.length ≤ 2 → trimLine l = []) := by
  constructor
  · intro a b last content
    rw [trimLine]
    simp
  · intro l hl
    rw [trimLine, List.drop_eq_nil_of_le (by omega)]
    rfl

/-- C5 witness: the two parts of the trimming theorem at concrete lines. -/
theorem trimLine_trims_prefix_and_terminator_witness :
    trimLine ['E', '|', '0', '-', '\n'] = ['0', '-'] ∧
      (['E'] : List Char).length ≤ 2 ∧ trimLine ['E'] = [] :=
  ⟨trimLine_trims_prefix_and_terminator.1 'E' '|' '\n' ['0', '-'],
    by decide, trimLine_trims_prefix_and_terminator.2 ['E'] (by decide)⟩

/-- C9: a successful decode call modifies neither the notation tables nor
the configuration fields; each keeps its constructor-set value. -/
theorem read_preserves_config (t : Tab) (input : List (List Char)) (t' : Tab)
    (res : List (List Char)) (h : t.read input = some (t', res)) :
    t'.symbols = t.symbols ∧ t'.notes_sharps = t.notes_sharps ∧
      t'.notes_flat = t.notes_flat ∧ t'.divisions = t.divisions ∧
      t'.timesignature = t.timesignature ∧ t'.strings = t.strings := by
  obtain ⟨fl, roots, _, _, _, ht⟩ := read_eq_some h
  subst ht
  exact ⟨rfl, rfl, rfl, rfl, rfl, rfl⟩

/-- C9 witness: a concrete successful decode keeps tables and settings. -/
theorem read_preserves_config_witness :
    Tab.read (mkTab 16 ['4', '/', '3'] 1) [['E', '|', '0', '\n']] =
      some ({ mkTab 16 ['4', '/', '3'] 1 with tab := [['0']], tab_roots := ['E'] },
        [['0']]) ∧
    ({ mkTab 16 ['4', '/', '3'] 1 with tab := [['0']], tab_roots := ['E'] } : Tab).symbols =
        (mkTab 16 ['4', '/', '3'] 1).symbols ∧
      ({ mkTab 16 ['4', '/', '3'] 1 with tab := [['0']], tab_roots := ['E'] } : Tab).notes_sharps =
        (mkTab 16 ['4', '/', '3'] 1).notes_sharps ∧
      ({ mkTab 16 ['4', '/', '3'] 1 with tab := [['0']], tab_roots := ['E'] } : Tab).notes_flat =
        (mkTab 16 ['4', '/', '3'] 1).notes_flat ∧
      ({ mkTab 16 ['4', '/', '3'] 1 with tab := [['0']], tab_roots := ['E'] } : Tab).divisions =
        (mkTab 16 ['4', '/', '3'] 1).divisions ∧
      ({ mkTab 16 ['4', '/', '3'] 1 with tab := [['0']], tab_roots := ['E'] } : Tab).timesignature =
        (mkTab 16 ['4', '/', '3'] 1).timesignature ∧
      ({ mkTab 16 ['4', '/', '3'] 1 with tab := [['0']], tab_roots := ['E'] } : Tab).strings =
        (mkTab 16 ['4', '/', '3'] 1).strings :=
  ⟨by decide, read_preserves_config (mkTab 16 ['4', '/', '3'] 1) [['E', '|', '0', '\n']]
    { mkTab 16 ['4', '/', '3'] 1 with tab := [['0']], tab_roots := ['E'] } [['0']] (by decide)⟩

/-- C4 counterexample: on two consecutive blank lines the source's
remove-while-iterating filter keeps the second blank line, so the
filtering step does not discard every empty line on such inputs. -/
theorem filterLines_consecutive_blanks_cex :
    filterLines [['\n'], ['\n'], ['E', '|', 'a', '\n']] =
        some [['\n'], ['E', '|', 'a', '\n']] ∧
      stableFilter [['\n'], ['\n'], ['E', '|', 'a', '\n']] = [['E', '|', 'a', '\n']] ∧
      ([['\n'], ['E', '|', 'a', '\n']] : List (List Char)) ≠ [['E', '|', 'a', '\n']] := by
  decide

/-- C4 (amended): the filtering pass removes only blank and header lines
and preserves the order of the remaining ones: its result is a sublist of
the input that retains exactly the non-blank, non-header lines; however,
consecutive blank or header lines may be under-removed, so blank or
header lines can survive in the result. -/
theorem filterLines_sublist_stable (input fl : List (List Char))
    (h : filterLines input = some fl) :
    fl.Sublist input ∧ stableFilter fl = stableFilter input :=
  filterLoop_inv _ _ _ _ h

/-- C4 witness: the amended filtering theorem at a concrete input. -/
theorem filterLines_sublist_stable_witness :
    filterLines [['\n'], ['E', '|', 'a', '\n']] = some [['E', '|', 'a', '\n']] ∧
      ([['E', '|', 'a', '\n']] : List (List Char)).Sublist
        [['\n'], ['E', '|', 'a', '\n']] ∧
      stableFilter [['E', '|', 'a', '\n']] =
        stableFilter [['\n'], ['E', '|', 'a', '\n']] :=
  ⟨by decide, filterLines_sublist_stable [['\n'], ['E', '|', 'a', '\n']]
    [['E', '|', 'a', '\n']] (by decide)⟩

/-- C1 counterexample: with two leading consecutive blank lines the
under-removing filter keeps one blank line, which shifts the interleaving
parity, so the sequence decoded for string 0 is not the concatenation of
the non-blank, non-header lines at even positions. -/
theorem read_interleaves_by_string_cex :
    ¬ ((Tab.read (mkTab 16 [] 2)
          [['\n'], ['\n'], ['E', '|', 'a', 'b', '\n'], ['B', '|', 'c', 'd', '\n']]).map
            (fun p => p.2.getD 0 []) =
        some (specSeq 2 0 (((stableFilter
          [['\n'], ['\n'], ['E', '|', 'a', 'b', '\n'], ['B', '|', 'c', 'd', '\n']]).map
            trimLine).map removePipes))) := by
  decide

/-- C1 (amended): for each string index `i` below `strings`, a successful
decode returns at index `i` the concatenation, in ascending position
order, of the trimmed, bar-stripped content of every line of the actual
filtering-pass result (which may retain under-removed blank or header
lines) at a position congruent to `i` modulo `strings`. -/
theorem read_interleaves_by_string (t : Tab) (input fl : List (List Char))
    (t' : Tab) (res : List (List Char)) (i : Nat)
    (hf : filterLines input = some fl)
    (h : t.read input = some (t', res)) (hi : i < t.strings) :
    res.getD i [] = specSeq t.strings i ((fl.map trimLine).map removePipes) := by
  obtain ⟨fl', roots, hf', hr, hres, ht⟩ := read_eq_some h
  rw [hf'] at hf
  injection hf with hfl
  subst hfl
  rw [hres, getD_range_map _ _ _ _ hi, groupJoin_eq_specSeq _ _ _ hi]

/-- C1 witness: the amended interleaving theorem on a two-string input of
two measure blocks. -/
theorem read_interleaves_by_string_witness :
    filterLines [['E', '|', 'a', '\n'], ['B', '|', 'c', '\n'],
        ['E', '|', 'b', '\n'], ['B', '|', 'd', '\n']] =
      some [['E', '|', 'a', '\n'], ['B', '|', 'c', '\n'],
        ['E', '|', 'b', '\n'], ['B', '|', 'd', '\n']] ∧
    Tab.read (mkTab 16 [] 2) [['E', '|', 'a', '\n'], ['B', '|', 'c', '\n'],
        ['E', '|', 'b', '\n'], ['B', '|', 'd', '\n']] =
      some ({ mkTab 16 [] 2 with
                tab := [['a', 'b'], ['c', 'd']], tab_roots := ['E', 'B'] },
        [['a', 'b'], ['c', 'd']]) ∧
    0 < 2 ∧
    ([['a', 'b'], ['c', 'd']] : List (List Char)).getD 0 [] =
      specSeq 2 0 ((([['E', '|', 'a', '\n'], ['B', '|', 'c', '\n'],
        ['E', '|', 'b', '\n'], ['B', '|', 'd', '\n']].map trimLine)).map removePipes) :=
  ⟨by decide, by decide, by decide,
    read_interleaves_by_string (mkTab 16 [] 2)
      [['E', '|', 'a', '\n'], ['B', '|', 'c', '\n'], ['E', '|', 'b', '\n'], ['B', '|', 'd', '\n']]
      [['E', '|', 'a', '\n'], ['B', '|', 'c', '\n'], ['E', '|', 'b', '\n'], ['B', '|', 'd', '\n']]
      { mkTab 16 [] 2 with tab := [['a', 'b'], ['c', 'd']], tab_roots := ['E', 'B'] }
      [['a', 'b'], ['c', 'd']] 0 (by decide) (by decide) (by decide)⟩

/-- C2 counterexample: an input of two blank lines has zero usable
(non-blank, non-header) lines, yet with one string the decode succeeds
instead of failing, because the under-removed blank line is consumed as a
tab line. -/
theorem read_insufficient_lines_cex :
    (stableFilter [['\n'], ['\n']]).length < (mkTab 16 [] 1).strings ∧
      Tab.read (mkTab 16 [] 1) [['\n'], ['\n']] ≠ none := by
  decide

/-- C2 (amended): over readlines-shaped input (no empty-string line), the
decode fails exactly when the source's filtering pass leaves fewer than
`strings` lines; that out-of-range root access is the sole failure mode. -/
theorem read_fails_iff_filtered_short (t : Tab) (input : List (List Char))
    (hne : ∀ l ∈ input, l ≠ []) :
    ∃ fl, filterLines input = some fl ∧
      (t.read input = none ↔ fl.length < t.strings) := by
  obtain ⟨fl, hfl0⟩ := Option.isSome_iff_exists.mp
    (filterLoop_isSome input.length input 0 hne)
  have hfl : filterLines input = some fl := hfl0
  have hsub : fl.Sublist input := (filterLoop_inv _ _ _ _ hfl0).1
  have hne' : ∀ l ∈ fl, l ≠ [] := fun l hl => hne l (hsub.mem hl)
  refine ⟨fl, hfl, ?_, ?_⟩
  · intro hnone
    by_contra hge
    have hsome : ∀ i ∈ List.range t.strings, (rootAt fl i).isSome := by
      intro i hi
      exact rootAt_isSome_of fl i (by
        have := List.mem_range.mp hi
        omega) hne'
    have := read_mk t input fl _ hfl (getRootsAux_eq_map fl _ hsome)
    rw [this] at hnone
    cases hnone
  · intro hlt
    have hnone : getRoots fl t.strings = none :=
      getRootsAux_eq_none fl _ fl.length (List.mem_range.mpr hlt)
        (rootAt_none_of_ge fl fl.length (Nat.le_refl _))
    rw [Tab.read]
    simp only [hfl, hnone]

/-- C2 witness: a one-line input with two configured strings filters to a
single line and the decode fails. -/
theorem read_fails_iff_filtered_short_witness :
    (∀ l ∈ ([['E', '|', 'a', '\n']] : List (List Char)), l ≠ []) ∧
      ∃ fl, filterLines [['E', '|', 'a', '\n']] = some fl ∧
        (Tab.read (mkTab 16 [] 2) [['E', '|', 'a', '\n']] = none ↔
          fl.length < (mkTab 16 [] 2).strings) :=
  ⟨by decide, read_fails_iff_filtered_short (mkTab 16 [] 2)
    [['E', '|', 'a', '\n']] (by decide)⟩

/-- C3: on readlines-shaped input with at least `strings` usable
(non-blank, non-header) lines, decode on a fresh decoder succeeds, caches
exactly `strings` root notes, returns exactly `strings` per-string
sequences, and no returned sequence contains a bar character. -/
theorem read_output_shape (d : Int) (ts : List Char) (s : Nat)
    (input : List (List Char)) (hne : ∀ l ∈ input, l ≠ [])
    (husable : s ≤ (stableFilter input).length) :
    ∃ t' res, Tab.read (mkTab d ts s) input = some (t', res) ∧
      t'.tab_roots.length = s ∧ res.length = s ∧ ∀ seq ∈ res, '|' ∉ seq := by
  obtain ⟨fl, hfl0⟩ := Option.isSome_iff_exists.mp
    (filterLoop_isSome input.length input 0 hne)
  have hfl : filterLines input = some fl := hfl0
  obtain ⟨hsub, hstable⟩ := filterLoop_inv _ _ _ _ hfl0
  have hne' : ∀ l ∈ fl, l ≠ [] := fun l hl => hne l (hsub.mem hl)
  have hlen : s ≤ fl.length := by
    have h1 : (stableFilter input).length = (stableFilter fl).length := by
      rw [hstable]
    have h2 : (stableFilter fl).length ≤ fl.length := List.length_filter_le _ _
    omega
  have hroots := getRootsAux_eq_map fl (List.range s) (by
    intro i hi
    exact rootAt_isSome_of fl i (by
      have := List.mem_range.mp hi
      omega) hne')
  have hr : getRoots fl (mkTab d ts s).strings =
      some ((List.range s).map (fun i => (rootAt fl i).getD ' ')) := hroots
  have hread := read_mk (mkTab d ts s) input fl _ hfl hr
  refine ⟨_, _, hread, ?_, ?_, ?_⟩
  · simp [mkTab]
  · simp [mkTab]
  · intro seq hseq
    obtain ⟨i, _, rfl⟩ := List.mem_map.mp hseq
    apply not_mem_groupJoin
    intro l hl
    obtain ⟨y, _, rfl⟩ := List.mem_map.mp hl
    exact not_mem_removePipes y

/-- C3 witness: a three-line input with two configured strings decodes to
two roots and two bar-free sequences. -/
theorem read_output_shape_witness :
    (∀ l ∈ ([['E', '|', 'a', '\n'], ['B', '|', 'c', '|', 'd', '\n'],
        ['E', '|', 'b', '\n']] : List (List Char)), l ≠ []) ∧
      2 ≤ (stableFilter [['E', '|', 'a', '\n'], ['B', '|', 'c', '|', 'd', '\n'],
        ['E', '|', 'b', '\n']]).length ∧
      ∃ t' res, Tab.read (mkTab 16 [] 2) [['E', '|', 'a', '\n'],
          ['B', '|', 'c', '|', 'd', '\n'], ['E', '|', 'b', '\n']] = some (t', res) ∧
        t'.tab_roots.length = 2 ∧ res.length = 2 ∧ ∀ seq ∈ res, '|' ∉ seq :=
  ⟨by decide, by decide, read_output_shape 16 [] 2
    [['E', '|', 'a', '\n'], ['B', '|', 'c', '|', 'd', '\n'], ['E', '|', 'b', '\n']]
    (by decide) (by decide)⟩

/-- C6: on an input of exactly `strings` tab lines (no blank or header
lines), decode succeeds and string `i` receives exactly line `i`'s
trimmed, bar-free content. -/
theorem read_single_block (t : Tab) (input : List (List Char))
    (hlen : input.length = t.strings)
    (hlines : ∀ l ∈ input, isJunk l = false ∧ l ≠ []) :
    ∃ t' res, t.read input = some (t', res) ∧ res.length = t.strings ∧
      ∀ i, i < t.strings → res.getD i [] = removePipes (trimLine (input.getD i [])) := by
  have hfl : filterLines input = some input := filterLoop_of_clean _ _ _ hlines
  have hne' : ∀ l ∈ input, l ≠ [] := fun l hl => (hlines l hl).2
  have hroots := getRootsAux_eq_map input (List.range t.strings) (by
    intro i hi
    exact rootAt_isSome_of input i (by
      have := List.mem_range.mp hi
      omega) hne')
  have hr : getRoots input t.strings =
      some ((List.range t.strings).map (fun i => (rootAt input i).getD ' ')) := hroots
  have hread := read_mk t input input _ hfl hr
  refine ⟨_, _, hread, by simp, ?_⟩
  intro i hi
  rw [getD_range_map _ _ _ _ hi]
  have hlen2 : ((input.map trimLine).map removePipes).length = t.strings := by
    simp [hlen]
  rw [groupJoin, hlen2, rangeStep_self i t.strings hi]
  simp only [List.map_cons, List.map_nil, List.flatten_cons, List.flatten_nil,
    List.append_nil]
  rw [List.getD_eq_getElem _ _ (by
    simp only [List.length_map]
    omega)]
  simp only [List.getElem_map]
  rw [List.getD_eq_getElem _ _ (by omega)]

/-- C6 witness: two tab lines, two strings, each sequence is its own
line's trimmed bar-free content. -/
theorem read_single_block_witness :
    ([['E', '|', 'a', '|', 'b', '\n'], ['B', '|', 'c', '\n']] : List (List Char)).length =
        (mkTab 16 [] 2).strings ∧
      (∀ l ∈ ([['E', '|', 'a', '|', 'b', '\n'], ['B', '|', 'c', '\n']] : List (List Char)),
        isJunk l = false ∧ l ≠ []) ∧
      ∃ t' res, Tab.read (mkTab 16 [] 2)
          [['E', '|', 'a', '|', 'b', '\n'], ['B', '|', 'c', '\n']] = some (t', res) ∧
        res.length = (mkTab 16 [] 2).strings ∧
        ∀ i, i < (mkTab 16 [] 2).strings →
          res.getD i [] = removePipes (trimLine
            (([['E', '|', 'a', '|', 'b', '\n'], ['B', '|', 'c', '\n']] :
              List (List Char)).getD i [])) :=
  ⟨by decide, by decide, read_single_block (mkTab 16 [] 2)
    [['E', '|', 'a', '|', 'b', '\n'], ['B', '|', 'c', '\n']] (by decide) (by decide)⟩

/-- C7: the display step is root + bar + sequence at every index whenever
the cached roots and sequences have equal length, and on every successful
fresh-decoder decode result each display line is the decoded root at that
index followed by the bar character and the sequence. -/
theorem printLines_format :
    (∀ t : Tab, t.tab_roots.length = t.tab.length →
      t.printLines = some ((List.range t.tab.length).map
        (fun i => t.tab_roots.getD i ' ' :: '|' :: t.tab.getD i []))) ∧
    (∀ (d : Int) (ts : List Char) (s : Nat) (input : List (List Char)) (t' : Tab)
        (res : List (List Char)), Tab.read (mkTab d ts s) input = some (t', res) →
      t'.printLines = some ((List.range t'.tab.length).map
        (fun i => t'.tab_roots.getD i ' ' :: '|' :: t'.tab.getD i []))) := by
  have part1 : ∀ t : Tab, t.tab_roots.length = t.tab.length →
      t.printLines = some ((List.range t.tab.length).map
        (fun i => t.tab_roots.getD i ' ' :: '|' :: t.tab.getD i [])) := by
    intro t h
    rw [Tab.printLines]
    exact printLinesAux_eq_map _ _ _ (by
      intro i hi
      have := List.mem_range.mp hi
      omega)
  refine ⟨part1, ?_⟩
  intro d ts s input t' res h
  obtain ⟨fl, roots, hf, hgr, hres, ht⟩ := read_eq_some h
  have hroots : roots.length = s :=
    (getRootsAux_length fl _ _ hgr).trans (List.length_range _)
  apply part1
  rw [ht, hres]
  simp [mkTab, hroots]

/-- C7 witness: the display equation on a concrete state and on a
concrete decode result. -/
theorem printLines_format_witness :
    ({ mkTab 16 [] 1 with tab := [['a']], tab_roots := ['E'] } : Tab).tab_roots.length =
        ({ mkTab 16 [] 1 with tab := [['a']], tab_roots := ['E'] } : Tab).tab.length ∧
      ({ mkTab 16 [] 1 with tab := [['a']], tab_roots := ['E'] } : Tab).printLines =
        some [['E', '|', 'a']] ∧
      Tab.read (mkTab 16 [] 1) [['E', '|', 'a', '\n']] =
        some ({ mkTab 16 [] 1 with tab := [['a']], tab_roots := ['E'] }, [['a']]) :=
  ⟨by decide, (printLines_format.1 _ (by decide)).trans (by decide), by decide⟩

/-- C10: a successful decode appends `strings` new root characters to the
cached roots without clearing them while replacing the cached sequences
wholesale: after one decode plus `rest.length` further successful decodes
on the same object, the cached roots have length
`(rest.length + 1) * strings`, the cached sequences have length
`strings`, the first `strings` cached roots are exactly the first call's
roots, and the display step therefore pairs the first call's roots with
the latest call's sequences. -/
theorem read_accumulates_roots (d : Int) (ts : List Char) (s : Nat)
    (input : List (List Char)) (rest : List (List (List Char)))
    (t1 : Tab) (r1 : List (List Char)) (t' : Tab)
    (h1 : Tab.read (mkTab d ts s) input = some (t1, r1))
    (h2 : readAll t1 rest = some t') :
    t'.tab_roots.length = (rest.length + 1) * s ∧ t'.tab.length = s ∧
      t'.tab_roots.take s = t1.tab_roots ∧
      t'.printLines = some ((List.range t'.tab.length).map
        (fun i => t1.tab_roots.getD i ' ' :: '|' :: t'.tab.getD i [])) := by
  obtain ⟨fl, roots, hf, hgr, hres, ht⟩ := read_eq_some h1
  have hroots : roots.length = s :=
    (getRootsAux_length fl _ _ hgr).trans (List.length_range _)
  have ht1r : t1.tab_roots = roots := by
    rw [ht]
    simp [mkTab]
  have ht1len : t1.tab_roots.length = s := by
    rw [ht1r, hroots]
  have ht1tab : t1.tab.length = s := by
    rw [ht, hres]
    simp [mkTab]
  have ht1s : t1.strings = s := by
    rw [ht]
    rfl
  obtain ⟨g1, g2, g3, g4⟩ := readAll_inv rest t1 t' h2
  have hlen' : t'.tab_roots.length = (rest.length + 1) * s := by
    rw [g2, ht1len, ht1s]
    ring
  have htab' : t'.tab.length = s := by
    rcases g4 with g4 | g4
    · rw [g4, ht1tab]
    · rw [g4, ht1s]
  have htake : t'.tab_roots.take s = t1.tab_roots := by
    rw [← ht1len]
    exact g3
  refine ⟨hlen', htab', htake, ?_⟩
  rw [Tab.printLines, printLinesAux_eq_map _ _ _ (by
    intro i hi
    have := List.mem_range.mp hi
    rw [hlen', Nat.succ_mul]
    have : i < s := by omega
    omega)]
  congr 1
  apply List.map_congr_left
  intro i hi
  have hilt : i < s := by
    have := List.mem_range.mp hi
    omega
  rw [← htake, getD_take_eq _ _ _ _ hilt]

/-- C10 witness: two successive decodes with one string; the cached roots
grow to length two while the sequences stay at length one, and the
display pairs the first root with the second call's content. -/
theorem read_accumulates_roots_witness :
    Tab.read (mkTab 16 [] 1) [['E', '|', 'a', '\n']] = some (sampleT1, [['a']]) ∧
      readAll sampleT1 [[['F', '|', 'b', '\n']]] = some sampleT2 ∧
      (sampleT2.tab_roots.length = ([[['F', '|', 'b', '\n']]].length + 1) * 1 ∧
        sampleT2.tab.length = 1 ∧
        sampleT2.tab_roots.take 1 = sampleT1.tab_roots ∧
        sampleT2.printLines = some ((List.range sampleT2.tab.length).map
          (fun i => sampleT1.tab_roots.getD i ' ' :: '|' :: sampleT2.tab.getD i []))) :=
  ⟨by decide, by decide, read_accumulates_roots 16 [] 1 [['E', '|', 'a', '\n']]
    [[['F', '|', 'b', '\n']]] sampleT1 [['a']] sampleT2 (by decide) (by decide)⟩
